import Mathlib

/-!
Shallow embedding of the Stock_widget backend (src/backend) in Lean 4.

Modelling conventions:
* Python `float` values (prices, thresholds) are modelled as `ℚ`; the claims
  under study are about control flow and exact round-trips, not about binary
  floating-point rounding.
* `datetime` instants are modelled as `ℚ` timestamps (seconds); `timedelta
  .total_seconds()` becomes rational subtraction.  `datetime.now(...)` calls
  are made explicit `now` parameters of the functions that perform them.
* Python dicts keyed by rule id (`AlertManager._rules`) preserve insertion
  order and `add_rule` only ever inserts fresh keys, so the dict is modelled
  as a `List AlertRule` in insertion order; in-place mutation of a rule during
  iteration becomes an element-wise `map` (each loop iteration touches only
  its own rule).
-/

namespace StockWidget

/-- `models.StockPrice`: one price point of a snapshot. -/
structure StockPrice where
  symbol : String
  price : ℚ
  change : ℚ
  percentChange : ℚ
  ts : ℚ
deriving DecidableEq, Repr

/-- `models.AlertRule`: a threshold rule.  `cooldown_seconds` is an `int` in
the source, `last_triggered` an optional `datetime`. -/
structure AlertRule where
  id : Nat
  symbol : String
  operator : String
  threshold : ℚ
  description : String
  enabled : Bool
  cooldown_seconds : ℤ
  last_triggered : Option ℚ
deriving DecidableEq, Repr

/-- `models.AlertEvent`: a concrete alert firing. -/
structure AlertEvent where
  rule_id : Nat
  symbol : String
  price : ℚ
  triggered_at : ℚ
  message : String
deriving DecidableEq, Repr

/-- Placeholder used with `List.getD`; never affects in-range reasoning. -/
def defaultRule : AlertRule :=
  { id := 0, symbol := "", operator := "", threshold := 0, description := ""
    enabled := false, cooldown_seconds := 0, last_triggered := none }

/-- State of `alert_service.AlertManager`: `_rules` (insertion-ordered dict of
rules), `_next_id`, `_events`. -/
structure AlertManager where
  rules : List AlertRule
  next_id : Nat
  events : List AlertEvent
deriving Repr

/-- `AlertManager.__init__`. -/
def AlertManager.init : AlertManager :=
  { rules := [], next_id := 1, events := [] }

/-- `AlertManager.add_rule`: builds the rule (symbol uppercased, id from
`_next_id`), stores it, bumps `_next_id`, returns it. -/
def add_rule (m : AlertManager) (symbol operator : String) (threshold : ℚ)
    (description : String) (enabled : Bool) (cooldown_seconds : ℤ) :
    AlertRule × AlertManager :=
  let rule : AlertRule :=
    { id := m.next_id, symbol := symbol.toUpper, operator := operator
      threshold := threshold, description := description, enabled := enabled
      cooldown_seconds := cooldown_seconds, last_triggered := none }
  (rule, { m with rules := m.rules ++ [rule], next_id := m.next_id + 1 })

/-- `AlertManager.list_rules`: `list(self._rules.values())`. -/
def list_rules (m : AlertManager) : List AlertRule :=
  m.rules

/-- `AlertManager.recent_events`: `list(self._events)`. -/
def recent_events (m : AlertManager) : List AlertEvent :=
  m.events

/-- `AlertManager._condition_met`: evaluate the rule's operator against the
price; unknown operator never fires. -/
def condition_met (rule : AlertRule) (price : ℚ) : Bool :=
  if rule.operator = ">" then decide (price > rule.threshold)
  else if rule.operator = "<" then decide (price < rule.threshold)
  else if rule.operator = ">=" then decide (price ≥ rule.threshold)
  else if rule.operator = "<=" then decide (price ≤ rule.threshold)
  else if rule.operator = "==" then decide (price = rule.threshold)
  else false

/-- `AlertManager._can_trigger`: unset `last_triggered` always passes; else
the elapsed time must reach `cooldown_seconds`. -/
def can_trigger (rule : AlertRule) (now : ℚ) : Bool :=
  match rule.last_triggered with
  | none => true
  | some t => decide (now - t ≥ (rule.cooldown_seconds : ℚ))

/-- The dict comprehension `{p.symbol.upper(): p for p in prices}` followed by
`.get(key)`: a later entry with the same upper-cased symbol overwrites an
earlier one, so lookup returns the last match. -/
def price_by_symbol (prices : List StockPrice) (key : String) : Option StockPrice :=
  (prices.filter (fun p => p.symbol.toUpper == key)).getLast?

/-- Two-decimal rendering used by the f-string's `{current_price:.2f}`. -/
def fmt2 (q : ℚ) : String :=
  let c : ℤ := round (q * 100)
  let n : Nat := c.natAbs
  let frac : Nat := n % 100
  (if c < 0 then "-" else "") ++ toString (n / 100) ++ "." ++
    (if frac < 10 then "0" ++ toString frac else toString frac)

/-- The alert message f-string of `check_alerts`. -/
def mkMessage (rule : AlertRule) (current_price : ℚ) : String :=
  "Alert " ++ toString rule.id ++ ": " ++ rule.symbol ++ " " ++ rule.operator
    ++ " " ++ toString rule.threshold ++ " (current: " ++ fmt2 current_price ++ ")"

/-- The `AlertEvent` constructed when a rule fires. -/
def mkEvent (rule : AlertRule) (current_price : ℚ) (now : ℚ) : AlertEvent :=
  { rule_id := rule.id, symbol := rule.symbol, price := current_price
    triggered_at := now, message := mkMessage rule current_price }

/-- One iteration of the `for rule in self._rules.values()` loop of
`check_alerts`: returns the (possibly updated) rule and the event it fired,
if any.  Each iteration reads and writes only its own rule and appends at
most its own event, so the loop is the `map`/`filterMap` of this step. -/
def processRule (lookup : String → Option StockPrice) (now : ℚ)
    (rule : AlertRule) : AlertRule × Option AlertEvent :=
  if !rule.enabled then (rule, none)
  else
    match lookup rule.symbol.toUpper with
    | none => (rule, none)
    | some price_obj =>
      if !condition_met rule price_obj.price then (rule, none)
      else if !can_trigger rule now then (rule, none)
      else
        ({ rule with last_triggered := some now },
         some (mkEvent rule price_obj.price now))

/-- `self._events = self._events[-50:]` guarded by `len(self._events) > 50`. -/
def trim50 (events : List AlertEvent) : List AlertEvent :=
  if events.length > 50 then events.drop (events.length - 50) else events

/-- `AlertManager.check_alerts`: evaluate all rules against the snapshot at
time `now`; returns the newly fired events and the updated manager. -/
def check_alerts (m : AlertManager) (prices : List StockPrice) (now : ℚ) :
    List AlertEvent × AlertManager :=
  if m.rules.isEmpty then ([], m)
  else
    let lookup := price_by_symbol prices
    let fired := m.rules.filterMap (fun r => (processRule lookup now r).2)
    let rules' := m.rules.map (fun r => (processRule lookup now r).1)
    (fired, { m with rules := rules', events := trim50 (m.events ++ fired) })

/-!
`cache_service.PriceCache`, modelled on its in-memory backend (the model
corresponds to a run where the redis library is unavailable or unreachable,
so `redis_client is None`; the spec treats the degrade as transparent).

The cached value is the raw string `self._memory_blob`.  We model it at the
level of `json.loads`: a `RawBlob` either fails to parse (`malformed`) or
parses to a `Json` value.  `jsonable_encoder` turns a `datetime` into an
ISO-8601 string that pydantic parses back to the same instant; the `Json.time`
constructor stands for such a string, carried by its instant value.  Numeric
strings that Python's `float(...)` would coerce are outside the modelled
value space.
-/

/-- JSON values as produced by `json.loads`. -/
inductive Json where
  | null
  | bool (b : Bool)
  | num (q : ℚ)
  | str (s : String)
  | time (t : ℚ)
  | arr (xs : List Json)
  | obj (fields : List (String × Json))

/-- A raw cached string: either invalid JSON or the value it parses to. -/
inductive RawBlob where
  | malformed
  | parsed (j : Json)

/-- `json.loads`, with the parse error reified as `none`. -/
def json_loads : RawBlob → Option Json
  | .malformed => none
  | .parsed j => some j

/-- Key lookup in a parsed JSON object (a Python dict: the last binding of a
duplicated key wins). -/
def jLookup (fields : List (String × Json)) (key : String) : Option Json :=
  ((fields.filter (fun kv => kv.1 == key)).getLast?).map (fun kv => kv.2)

/-- `blob.get(key)`: `none` models the `AttributeError` raised when `blob` is
not a dict (caught by `load_prices`); `some none` is an absent key. -/
def jGetAttr (j : Json) (key : String) : Option (Option Json) :=
  match j with
  | .obj fields => some (jLookup fields key)
  | _ => none

/-- Python's `float(ts)` on a JSON value: numbers pass through, booleans
coerce (`float(True) = 1.0`), everything else raises (reified as `none`). -/
def floatOfJson : Json → Option ℚ
  | .num q => some q
  | .bool b => some (if b then 1 else 0)
  | _ => none

/-- `jsonable_encoder` on one `StockPrice`: a JSON object with the model's
field names; the datetime becomes an ISO string (`Json.time`). -/
def encodeStockPrice (p : StockPrice) : Json :=
  .obj [("symbol", .str p.symbol), ("price", .num p.price),
        ("change", .num p.change), ("percentChange", .num p.percentChange),
        ("ts", .time p.ts)]

/-- `StockPrice(**item)`: pydantic validation of one cached item.  Every
required field must be present with a value of the right shape; extra keys
are ignored; any failure raises (reified as `none`). -/
def decodeStockPrice (j : Json) : Option StockPrice :=
  match j with
  | .obj fields =>
    match jLookup fields "symbol", jLookup fields "price",
          jLookup fields "change", jLookup fields "percentChange",
          jLookup fields "ts" with
    | some (.str s), some pj, some cj, some pcj, some (.time t) =>
      match floatOfJson pj, floatOfJson cj, floatOfJson pcj with
      | some price, some change, some pct =>
        some { symbol := s, price := price, change := change
               percentChange := pct, ts := t }
      | _, _, _ => none
    | _, _, _, _, _ => none
  | _ => none

/-- The list comprehension `[StockPrice(**item) for item in data]`: the first
failing item aborts the whole load (the exception is caught); iterating a
non-list raises as well. -/
def decodeData : Json → Option (List StockPrice)
  | .arr xs => decodeItems xs
  | _ => none
where
  decodeItems : List Json → Option (List StockPrice)
    | [] => some []
    | j :: rest =>
      match decodeStockPrice j, decodeItems rest with
      | some p, some ps => some (p :: ps)
      | _, _ => none

/-- State of `cache_service.PriceCache` (memory backend): the raw blob. -/
structure PriceCache where
  memory_blob : Option RawBlob

/-- `PriceCache.__init__` with no reachable redis backend. -/
def PriceCache.init : PriceCache :=
  { memory_blob := none }

/-- `PriceCache.save_prices`: stores `{"ts": time.time(), "data":
jsonable_encoder(prices)}` as the in-memory blob (the redis write is skipped
when `redis_client is None`).  `now` is the `time.time()` call. -/
def save_prices (_c : PriceCache) (prices : List StockPrice) (now : ℚ) :
    PriceCache :=
  { memory_blob := some (.parsed (.obj
      [("ts", .num now),
       ("data", .arr (prices.map encodeStockPrice))])) }

/-- `PriceCache.load_prices`: returns the cached prices unless the blob is
absent, unparseable, lacks a usable `ts`, is stale (`age > max_age_seconds`),
or an item fails validation — every failure path returns `none`, never an
error.  `now` is the `time.time()` call. -/
def load_prices (c : PriceCache) (max_age_seconds : ℚ) (now : ℚ) :
    Option (List StockPrice) :=
  match c.memory_blob with
  | none => none
  | some raw =>
    match json_loads raw with
    | none => none
    | some blob =>
      match jGetAttr blob "ts", jGetAttr blob "data" with
      | some tsOpt, some dataOpt =>
        match tsOpt with
        | none => none
        | some tsJson =>
          match floatOfJson tsJson with
          | none => none
          | some ts =>
            if now - ts > max_age_seconds then none
            else decodeData (dataOpt.getD (.arr []))
      | _, _ => none

/-!
`main.ConnectionManager`.  Websocket handles are opaque: we model them as
natural numbers.  Whether `connection.send_text(message)` raises for a given
connection is external behaviour, passed in as the predicate `fails`.
-/

/-- State of `main.ConnectionManager`: the `active_connections` list. -/
structure ConnectionManager where
  active_connections : List Nat

/-- `ConnectionManager.connect` (after the accept): append the handle. -/
def connect (m : ConnectionManager) (ws : Nat) : ConnectionManager :=
  { active_connections := m.active_connections ++ [ws] }

/-- `ConnectionManager.disconnect`: remove the handle if present. -/
def disconnect (m : ConnectionManager) (ws : Nat) : ConnectionManager :=
  if ws ∈ m.active_connections then
    { active_connections := m.active_connections.erase ws }
  else m

/-- The `for connection in list(self.active_connections)` loop of
`broadcast`: the first argument is the copy being iterated, the manager is
the live state.  Returns the final state and the connections whose
`send_text` succeeded, in iteration order. -/
def broadcastGo (fails : Nat → Bool) :
    List Nat → ConnectionManager → ConnectionManager × List Nat
  | [], m => (m, [])
  | c :: rest, m =>
    if fails c then broadcastGo fails rest (disconnect m c)
    else
      let (m', delivered) := broadcastGo fails rest m
      (m', c :: delivered)

/-- `ConnectionManager.broadcast`: iterate over a copy of the registry taken
at call start; a failed send disconnects that connection and the loop goes
on. -/
def broadcast (fails : Nat → Bool) (m : ConnectionManager) :
    ConnectionManager × List Nat :=
  broadcastGo fails m.active_connections m

/-!
Reference-level model of `list_rules` / `recent_events` (for the aliasing
claim).  Python objects live on a heap; `AlertManager._rules.values()` and
`AlertManager._events` hold references.  `list(...)` builds a NEW list object
containing the SAME references.  We model the heap as indexed stores and a
reference as an index; a caller-side mutation of a returned object is a
`List.set` on the heap.
-/

/-- Placeholder event for `List.getD`. -/
def defaultEvent : AlertEvent :=
  { rule_id := 0, symbol := "", price := 0, triggered_at := 0, message := "" }

/-- Heap-and-references view of an `AlertManager`. -/
structure RuleStore where
  ruleHeap : List AlertRule
  eventHeap : List AlertEvent
  ruleRefs : List Nat
  eventRefs : List Nat

/-- `list(self._rules.values())` at the reference level: a fresh list value
holding the same references, in registration order.  The engine state is not
touched. -/
def list_rules_refs (s : RuleStore) : List Nat :=
  s.ruleRefs

/-- `list(self._events)` at the reference level: a fresh list value holding
the same references, oldest first. -/
def recent_events_refs (s : RuleStore) : List Nat :=
  s.eventRefs

/-- A caller mutating the rule object behind a reference (e.g.
`list_rules()[0].enabled = False`): an in-place update of the heap. -/
def writeRuleObject (s : RuleStore) (ref : Nat) (r : AlertRule) : RuleStore :=
  { s with ruleHeap := s.ruleHeap.set ref r }

/-- The rule sequence the engine itself observes through its references. -/
def rulesView (s : RuleStore) : List AlertRule :=
  s.ruleRefs.map (fun i => s.ruleHeap.getD i defaultRule)

/-- The event history the engine itself observes through its references. -/
def eventsView (s : RuleStore) : List AlertEvent :=
  s.eventRefs.map (fun i => s.eventHeap.getD i defaultEvent)

/-- A caller mutating the returned LIST value itself (append, remove,
reorder, ...): it operates on the fresh list object, the engine keeps its own
state.  Returns the engine state after the caller's list surgery together
with the caller's list. -/
def callerListSurgery (s : RuleStore) (surgery : List Nat → List Nat) :
    RuleStore × List Nat :=
  (s, surgery (list_rules_refs s))

/-!
Repeated evaluation (the distribution loop calling `check_alerts` once per
cycle), used to state history-boundedness across a whole run.
-/

/-- Run `check_alerts` over a list of `(snapshot, now)` cycles. -/
def runChecks (m : AlertManager) : List (List StockPrice × ℚ) → AlertManager
  | [] => m
  | (prices, now) :: rest => runChecks (check_alerts m prices now).2 rest

/-- All events fired over a run, in append order (the append stream). -/
def firedStream (m : AlertManager) : List (List StockPrice × ℚ) → List AlertEvent
  | [] => []
  | (prices, now) :: rest =>
    (check_alerts m prices now).1 ++
      firedStream (check_alerts m prices now).2 rest

/-- The last `n` elements of a list, in order. -/
def lastN (n : Nat) (l : List AlertEvent) : List AlertEvent :=
  l.drop (l.length - n)

/-!
Helper lemmas about one loop iteration of `check_alerts`.
-/

/-- The fields of a rule other than `last_triggered`. -/
def staticFields (r : AlertRule) : Nat × String × String × ℚ × String × Bool × ℤ :=
  (r.id, r.symbol, r.operator, r.threshold, r.description, r.enabled,
   r.cooldown_seconds)

theorem processRule_static (lookup : String → Option StockPrice) (now : ℚ)
    (r : AlertRule) : staticFields (processRule lookup now r).1 = staticFields r := by
  unfold processRule
  split
  · rfl
  · split
    · rfl
    · split
      · rfl
      · split
        · rfl
        · rfl

/-- A loop iteration either leaves the rule alone and fires nothing, or the
rule is enabled, in cooldown-free state, its symbol is priced, its condition
holds, `last_triggered` is stamped and the event is produced. -/
theorem processRule_cases (lookup : String → Option StockPrice) (now : ℚ)
    (r : AlertRule) :
    processRule lookup now r = (r, none) ∨
    (r.enabled = true ∧ can_trigger r now = true ∧
     ∃ p, lookup r.symbol.toUpper = some p ∧ condition_met r p.price = true ∧
       processRule lookup now r =
         ({ r with last_triggered := some now }, some (mkEvent r p.price now))) := by
  unfold processRule
  split
  · exact Or.inl rfl
  · rename_i henabled
    split
    · exact Or.inl rfl
    · rename_i p hp
      split
      · exact Or.inl rfl
      · rename_i hcond
        split
        · exact Or.inl rfl
        · rename_i htrig
          refine Or.inr ⟨by simpa using henabled, by simpa using htrig,
            p, hp, by simpa using hcond, rfl⟩

theorem processRule_snd_none {lookup : String → Option StockPrice} {now : ℚ}
    {r : AlertRule} (h : (processRule lookup now r).2 = none) :
    (processRule lookup now r).1 = r := by
  rcases processRule_cases lookup now r with hc | ⟨-, -, p, -, -, hc⟩
  · rw [hc]
  · rw [hc] at h
    exact Option.noConfusion h

theorem processRule_snd_some {lookup : String → Option StockPrice} {now : ℚ}
    {r : AlertRule} {e : AlertEvent} (h : (processRule lookup now r).2 = some e) :
    r.enabled = true ∧ can_trigger r now = true ∧ e.rule_id = r.id ∧
    e.triggered_at = now ∧
    (processRule lookup now r).1 = { r with last_triggered := some now } ∧
    ∃ p, lookup r.symbol.toUpper = some p ∧ condition_met r p.price = true ∧
      e = mkEvent r p.price now := by
  rcases processRule_cases lookup now r with hc | ⟨hen, htrig, p, hp, hcond, hc⟩
  · rw [hc] at h
    exact Option.noConfusion h
  · rw [hc] at h
    simp only [Option.some.injEq] at h
    subst h
    exact ⟨hen, htrig, rfl, rfl, by rw [hc], p, hp, hcond, rfl⟩

theorem check_alerts_fst (m : AlertManager) (prices : List StockPrice) (now : ℚ) :
    (check_alerts m prices now).1 =
      m.rules.filterMap (fun r => (processRule (price_by_symbol prices) now r).2) := by
  unfold check_alerts
  split
  · rename_i h
    rw [List.isEmpty_iff] at h
    simp [h]
  · rfl

theorem check_alerts_rules (m : AlertManager) (prices : List StockPrice) (now : ℚ) :
    (check_alerts m prices now).2.rules =
      m.rules.map (fun r => (processRule (price_by_symbol prices) now r).1) := by
  unfold check_alerts
  split
  · rename_i h
    rw [List.isEmpty_iff] at h
    simp [h]
  · rfl

theorem check_alerts_next_id (m : AlertManager) (prices : List StockPrice) (now : ℚ) :
    (check_alerts m prices now).2.next_id = m.next_id := by
  unfold check_alerts
  split <;> rfl

theorem check_alerts_events (m : AlertManager) (prices : List StockPrice) (now : ℚ)
    (h : ¬ m.rules.isEmpty) :
    (check_alerts m prices now).2.events =
      trim50 (m.events ++ (check_alerts m prices now).1) := by
  rw [check_alerts_fst]
  unfold check_alerts
  split
  · exact absurd (by assumption) h
  · rfl

theorem check_alerts_empty (m : AlertManager) (prices : List StockPrice) (now : ℚ)
    (h : m.rules = []) : check_alerts m prices now = ([], m) := by
  unfold check_alerts
  split
  · rfl
  · rename_i hne
    rw [List.isEmpty_iff] at hne
    exact absurd h hne

/-- With distinct rule ids, a fired event's `rule_id` identifies the rule
that fired it. -/
theorem fired_rule_unique {m : AlertManager} {prices : List StockPrice} {now : ℚ}
    {e : AlertEvent} {r : AlertRule}
    (hids : (m.rules.map AlertRule.id).Nodup) (hmem : r ∈ m.rules)
    (he : e ∈ (check_alerts m prices now).1) (hid : e.rule_id = r.id) :
    (processRule (price_by_symbol prices) now r).2 = some e := by
  rw [check_alerts_fst] at he
  rcases List.mem_filterMap.1 he with ⟨r', hr', hr'e⟩
  have hr'id := (processRule_snd_some hr'e).2.2.1
  have : r' = r :=
    List.inj_on_of_nodup_map hids hr' hmem (by rw [← hr'id, hid])
  rwa [← this]

/-- C5: a disabled rule never produces an event and its `last_triggered` is
never updated by `check_alerts`, whatever the snapshot. -/
theorem C5_disabled_rule_never_fires (m : AlertManager) (prices : List StockPrice)
    (now : ℚ) (r : AlertRule) (hmem : r ∈ m.rules) (hdis : r.enabled = false)
    (hids : (m.rules.map AlertRule.id).Nodup) :
    (∀ e ∈ (check_alerts m prices now).1, e.rule_id ≠ r.id) ∧
    (∀ i, i < m.rules.length → m.rules.getD i defaultRule = r →
      (check_alerts m prices now).2.rules.getD i defaultRule = r) := by
  have hstep : (processRule (price_by_symbol prices) now r).1 = r ∧
      (processRule (price_by_symbol prices) now r).2 = none := by
    unfold processRule
    rw [hdis]
    exact ⟨rfl, rfl⟩
  constructor
  · intro e he hid
    have := fired_rule_unique hids hmem he hid
    rw [hstep.2] at this
    exact Option.noConfusion this
  · intro i hi hr
    rw [check_alerts_rules]
    have hi' : i < (m.rules.map
        (fun r => (processRule (price_by_symbol prices) now r).1)).length := by
      simpa using hi
    rw [List.getD_eq_getElem _ _ hi', List.getElem_map,
      ← List.getD_eq_getElem _ defaultRule hi, hr, hstep.1]

/-- C6: a rule whose operator is outside `{>, <, >=, <=, ==}` never meets its
condition, never fires, and is left unchanged — the unknown operator is not
an error. -/
theorem C6_unknown_operator_never_fires (m : AlertManager)
    (prices : List StockPrice) (now : ℚ) (r : AlertRule) (hmem : r ∈ m.rules)
    (hop : r.operator ∉ ([">", "<", ">=", "<=", "=="] : List String))
    (hids : (m.rules.map AlertRule.id).Nodup) :
    (∀ price : ℚ, condition_met r price = false) ∧
    (∀ e ∈ (check_alerts m prices now).1, e.rule_id ≠ r.id) ∧
    (∀ i, i < m.rules.length → m.rules.getD i defaultRule = r →
      (check_alerts m prices now).2.rules.getD i defaultRule = r) := by
  simp only [List.mem_cons, List.mem_singleton, not_or] at hop
  obtain ⟨h1, h2, h3, h4, h5⟩ := hop
  have hcond : ∀ price : ℚ, condition_met r price = false := by
    intro price
    unfold condition_met
    rw [if_neg h1, if_neg h2, if_neg h3, if_neg h4, if_neg (by simpa using h5)]
  have hstep : (processRule (price_by_symbol prices) now r).1 = r ∧
      (processRule (price_by_symbol prices) now r).2 = none := by
    unfold processRule
    split
    · exact ⟨rfl, rfl⟩
    · split
      · exact ⟨rfl, rfl⟩
      · rename_i p hp
        rw [hcond p.price]
        exact ⟨rfl, rfl⟩
  refine ⟨hcond, ?_, ?_⟩
  · intro e he hid
    have := fired_rule_unique hids hmem he hid
    rw [hstep.2] at this
    exact Option.noConfusion this
  · intro i hi hr
    rw [check_alerts_rules]
    have hi' : i < (m.rules.map
        (fun r => (processRule (price_by_symbol prices) now r).1)).length := by
      simpa using hi
    rw [List.getD_eq_getElem _ _ hi', List.getElem_map,
      ← List.getD_eq_getElem _ defaultRule hi, hr, hstep.1]

/-!
Concrete instances (the spec's demo scenario) used by the witnesses.
-/

def exPrice : StockPrice :=
  { symbol := "AAPL", price := 150, change := 1, percentChange := 2, ts := 0 }

def exPriceTsla : StockPrice :=
  { symbol := "TSLA", price := 250, change := 1, percentChange := 2, ts := 0 }

def exManager : AlertManager :=
  (add_rule AlertManager.init "AAPL" ">" 0 "DEMO: AAPL > 0" true 10).2

def exRule : AlertRule :=
  (add_rule AlertManager.init "AAPL" ">" 0 "DEMO: AAPL > 0" true 10).1

def exManagerOff : AlertManager :=
  (add_rule AlertManager.init "TSLA" ">" 0 "disabled rule" false 10).2

def exRuleOff : AlertRule :=
  (add_rule AlertManager.init "TSLA" ">" 0 "disabled rule" false 10).1

def exManagerOdd : AlertManager :=
  (add_rule AlertManager.init "TSLA" "!=" 0 "unknown operator" true 10).2

def exRuleOdd : AlertRule :=
  (add_rule AlertManager.init "TSLA" "!=" 0 "unknown operator" true 10).1

theorem C5_witness :
    (check_alerts exManagerOff [exPriceTsla] 0).2.rules.getD 0 defaultRule
      = exRuleOff :=
  (C5_disabled_rule_never_fires exManagerOff [exPriceTsla] 0 exRuleOff
      (by with_unfolding_all decide) (by with_unfolding_all decide)
      (by with_unfolding_all decide)).2 0
    (by with_unfolding_all decide) (by with_unfolding_all decide)

theorem C6_witness :
    (check_alerts exManagerOdd [exPriceTsla] 0).2.rules.getD 0 defaultRule
      = exRuleOdd :=
  (C6_unknown_operator_never_fires exManagerOdd [exPriceTsla] 0 exRuleOdd
      (by with_unfolding_all decide) (by with_unfolding_all decide)
      (by with_unfolding_all decide)).2.2 0
    (by with_unfolding_all decide) (by with_unfolding_all decide)

theorem processRule_fst_id (lookup : String → Option StockPrice) (now : ℚ)
    (r : AlertRule) : (processRule lookup now r).1.id = r.id := by
  rcases processRule_cases lookup now r with hc | ⟨-, -, p, -, -, hc⟩ <;> rw [hc]

/-- C1: the cooldown gate of `check_alerts`.  An unset `last_triggered`
always passes; a rule fires only when `now - last_triggered` has reached its
own `cooldown_seconds`; and once a rule has fired, a second evaluation
strictly inside the cooldown window produces no event for that rule, whatever
prices it sees. -/
theorem C1_cooldown_gate (m : AlertManager) (prices₁ prices₂ : List StockPrice)
    (now₁ now₂ : ℚ) (r : AlertRule)
    (hids : (m.rules.map AlertRule.id).Nodup) (hmem : r ∈ m.rules) :
    (r.last_triggered = none → can_trigger r now₁ = true)
    ∧ (∀ e ∈ (check_alerts m prices₁ now₁).1, e.rule_id = r.id →
        ∀ t, r.last_triggered = some t → (r.cooldown_seconds : ℚ) ≤ now₁ - t)
    ∧ ((∃ e ∈ (check_alerts m prices₁ now₁).1, e.rule_id = r.id) →
        now₂ - now₁ < (r.cooldown_seconds : ℚ) →
        ((check_alerts (check_alerts m prices₁ now₁).2 prices₂ now₂).1.filter
          (fun e => e.rule_id == r.id)) = []) := by
  refine ⟨?_, ?_, ?_⟩
  · intro h
    unfold can_trigger
    rw [h]
  · intro e he hid t ht
    have hfire := fired_rule_unique hids hmem he hid
    have htrig := (processRule_snd_some hfire).2.1
    unfold can_trigger at htrig
    rw [ht] at htrig
    have := of_decide_eq_true htrig
    linarith
  · rintro ⟨e, he, hid⟩ hlt
    have hfire := fired_rule_unique hids hmem he hid
    have hstamp := (processRule_snd_some hfire).2.2.2.2.1
    rw [List.filter_eq_nil_iff]
    intro e₂ he₂
    rw [check_alerts_fst] at he₂
    rcases List.mem_filterMap.1 he₂ with ⟨r₂, hr₂, hr₂e⟩
    rw [check_alerts_rules] at hr₂
    rcases List.mem_map.1 hr₂ with ⟨r'', hr'', hr''step⟩
    simp only [beq_iff_eq]
    intro hid₂
    have hid'' : r''.id = r.id := by
      rw [← processRule_fst_id (price_by_symbol prices₁) now₁ r'', hr''step,
        ← (processRule_snd_some hr₂e).2.2.1, hid₂]
    have hrr : r'' = r := List.inj_on_of_nodup_map hids hr'' hmem hid''
    subst hrr
    rw [hstamp] at hr''step
    have htrig₂ := (processRule_snd_some hr₂e).2.1
    rw [← hr''step] at htrig₂
    unfold can_trigger at htrig₂
    simp only at htrig₂
    have := of_decide_eq_true htrig₂
    simp only at this
    linarith

theorem C1_witness :
    (check_alerts (check_alerts exManager [exPrice] 0).2 [exPrice] 5).1.filter
      (fun e => e.rule_id == exRule.id) = [] :=
  (C1_cooldown_gate exManager [exPrice] [exPrice] 0 5 exRule
      (by with_unfolding_all decide) (by with_unfolding_all decide)).2.2
    (by with_unfolding_all decide) (by with_unfolding_all decide)

/-!
C9: sequences of `add_rule` calls.
-/

/-- One argument tuple for `add_rule`. -/
structure AddArgs where
  symbol : String
  operator : String
  threshold : ℚ
  description : String
  enabled : Bool
  cooldown_seconds : ℤ

/-- Perform a sequence of `add_rule` calls, collecting the returned rules. -/
def addMany (m : AlertManager) : List AddArgs → AlertManager × List AlertRule
  | [] => (m, [])
  | a :: rest =>
    let rm := add_rule m a.symbol a.operator a.threshold a.description
      a.enabled a.cooldown_seconds
    let rec' := addMany rm.2 rest
    (rec'.1, rm.1 :: rec'.2)

theorem addMany_spec (args : List AddArgs) : ∀ m : AlertManager,
    (addMany m args).2.map AlertRule.id = List.range' m.next_id args.length
    ∧ (addMany m args).2.map AlertRule.symbol
        = args.map (fun a => a.symbol.toUpper)
    ∧ (addMany m args).1.rules = m.rules ++ (addMany m args).2
    ∧ (addMany m args).1.next_id = m.next_id + args.length := by
  induction args with
  | nil => intro m; simp [addMany]
  | cons a rest ih =>
    intro m
    obtain ⟨h1, h2, h3, h4⟩ := ih
      (add_rule m a.symbol a.operator a.threshold a.description a.enabled
        a.cooldown_seconds).2
    refine ⟨?_, ?_, ?_, ?_⟩
    · simp only [addMany, List.map_cons, List.range'_succ]
      rw [h1]
      rfl
    · simp only [addMany, List.map_cons, List.map]
      rw [h2]
      rfl
    · simp only [addMany]
      rw [h3]
      simp [add_rule]
    · simp only [addMany]
      rw [h4]
      simp [add_rule]
      omega

/-- C9: from a fresh manager, every `add_rule` call succeeds and stores the
returned rule with the symbol uppercased; the assigned ids are exactly
`1, 2, ..., n` — sequential from 1, strictly increasing, unique, never
reused. -/
theorem C9_add_rule_ids (args : List AddArgs) :
    (addMany AlertManager.init args).2.map AlertRule.id
      = List.range' 1 args.length
    ∧ List.Pairwise (· < ·) ((addMany AlertManager.init args).2.map AlertRule.id)
    ∧ ((addMany AlertManager.init args).2.map AlertRule.id).Nodup
    ∧ (addMany AlertManager.init args).2.map AlertRule.symbol
        = args.map (fun a => a.symbol.toUpper)
    ∧ (addMany AlertManager.init args).1.rules = (addMany AlertManager.init args).2
    ∧ (addMany AlertManager.init args).1.next_id = 1 + args.length := by
  obtain ⟨h1, h2, h3, h4⟩ := addMany_spec args AlertManager.init
  refine ⟨h1, ?_, ?_, h2, by simpa [AlertManager.init] using h3, h4⟩
  · rw [h1]
    exact List.pairwise_lt_range' 1 args.length
  · rw [h1]
    exact List.nodup_range' 1 args.length

/-- C10: frame property of `check_alerts`.  The call preserves `next_id`, the
rule count and every field of every rule except `last_triggered`; any rule
for which no event fired is entirely unchanged; the history changes only by
appending the fired events (then capping at 50); with no rules registered the
call returns empty and leaves the whole state unchanged. -/
theorem C10_check_alerts_frame (m : AlertManager) (prices : List StockPrice)
    (now : ℚ) :
    (check_alerts m prices now).2.next_id = m.next_id
    ∧ (check_alerts m prices now).2.rules.map staticFields
        = m.rules.map staticFields
    ∧ (¬ m.rules.isEmpty →
        (check_alerts m prices now).2.events
          = trim50 (m.events ++ (check_alerts m prices now).1))
    ∧ (m.events.length + (check_alerts m prices now).1.length ≤ 50 →
        (check_alerts m prices now).2.events
          = m.events ++ (check_alerts m prices now).1)
    ∧ (∀ i, i < m.rules.length →
        (∀ e ∈ (check_alerts m prices now).1,
          e.rule_id ≠ (m.rules.getD i defaultRule).id) →
        (check_alerts m prices now).2.rules.getD i defaultRule
          = m.rules.getD i defaultRule)
    ∧ (m.rules = [] → check_alerts m prices now = ([], m)) := by
  refine ⟨check_alerts_next_id m prices now, ?_, check_alerts_events m prices now,
    ?_, ?_, check_alerts_empty m prices now⟩
  · rw [check_alerts_rules, List.map_map]
    exact List.map_congr_left fun r _ =>
      processRule_static (price_by_symbol prices) now r
  · intro hlen
    by_cases hempty : m.rules.isEmpty
    · rw [List.isEmpty_iff] at hempty
      rw [check_alerts_empty m prices now hempty]
      simp
    · rw [check_alerts_events m prices now hempty]
      unfold trim50
      rw [if_neg (by simp only [List.length_append]; omega)]
  · intro i hi hnone
    rw [check_alerts_rules]
    have hi' : i < (m.rules.map
        (fun r => (processRule (price_by_symbol prices) now r).1)).length := by
      simpa using hi
    rw [List.getD_eq_getElem _ _ hi', List.getElem_map,
      ← List.getD_eq_getElem _ defaultRule hi]
    set r := m.rules.getD i defaultRule with hr
    have hrmem : r ∈ m.rules := by
      rw [hr, List.getD_eq_getElem _ defaultRule hi]
      exact List.getElem_mem ..
    rcases hcase : (processRule (price_by_symbol prices) now r).2 with - | e
    · exact processRule_snd_none hcase
    · exfalso
      have hemem : e ∈ (check_alerts m prices now).1 := by
        rw [check_alerts_fst]
        exact List.mem_filterMap.2 ⟨r, hrmem, hcase⟩
      exact hnone e hemem (processRule_snd_some hcase).2.2.1

theorem C10_witness :
    check_alerts AlertManager.init [exPrice] 0 = ([], AlertManager.init) :=
  (C10_check_alerts_frame AlertManager.init [exPrice] 0).2.2.2.2.2 rfl

/-!
C2: the bounded, FIFO event history across a whole run.
-/

theorem lastN_of_le {n : Nat} {l : List AlertEvent} (h : l.length ≤ n) :
    lastN n l = l := by
  unfold lastN
  rw [Nat.sub_eq_zero_of_le h, List.drop_zero]

theorem lastN_length (n : Nat) (l : List AlertEvent) : (lastN n l).length ≤ n := by
  simp only [lastN, List.length_drop]
  omega

theorem trim50_eq_lastN (l : List AlertEvent) : trim50 l = lastN 50 l := by
  unfold trim50 lastN
  split
  · rfl
  · rename_i h
    rw [Nat.sub_eq_zero_of_le (by omega), List.drop_zero]

theorem lastN_lastN (m n : Nat) (l : List AlertEvent) :
    lastN m (lastN n l) = lastN (min m n) l := by
  simp only [lastN, List.length_drop, List.drop_drop]
  congr 1
  omega

theorem lastN_append (n : Nat) (a f : List AlertEvent) :
    lastN n (a ++ f) = lastN (n - f.length) a ++ lastN n f := by
  unfold lastN
  rw [List.length_append, List.drop_append_eq_append_drop]
  rcases le_or_lt f.length n with h | h
  · have h2 : a.length + f.length - n - a.length = f.length - n := by omega
    have h1 : a.length + f.length - n = a.length - (n - f.length) := by omega
    rw [h2, h1]
  · have h3 : a.length + f.length - n - a.length = f.length - n := by omega
    rw [h3,
      show List.drop (a.length + f.length - n) a = [] from
        List.drop_eq_nil_iff.2 (by omega),
      show List.drop (a.length - (n - f.length)) a = [] from
        List.drop_eq_nil_iff.2 (by omega)]

theorem lastN_append_lastN (n : Nat) (a f : List AlertEvent) :
    lastN n (lastN n a ++ f) = lastN n (a ++ f) := by
  rw [lastN_append, lastN_append n a f, lastN_lastN,
    Nat.min_eq_left (Nat.sub_le n f.length)]

theorem runChecks_events (calls : List (List StockPrice × ℚ)) :
    ∀ m : AlertManager, m.events.length ≤ 50 →
    (runChecks m calls).events = lastN 50 (m.events ++ firedStream m calls) := by
  induction calls with
  | nil =>
    intro m h
    show m.events = _
    rw [firedStream, List.append_nil, lastN_of_le h]
  | cons c rest ih =>
    rcases c with ⟨prices, now⟩
    intro m h
    show (runChecks (check_alerts m prices now).2 rest).events = _
    by_cases hempty : m.rules.isEmpty
    · rw [List.isEmpty_iff] at hempty
      have heq := check_alerts_empty m prices now hempty
      have hfs : firedStream m ((prices, now) :: rest)
          = firedStream (check_alerts m prices now).2 rest := by
        show (check_alerts m prices now).1 ++ _ = _
        rw [heq]
        rfl
      rw [hfs, heq]
      exact ih m h
    · have hev : (check_alerts m prices now).2.events
          = lastN 50 (m.events ++ (check_alerts m prices now).1) := by
        rw [check_alerts_events m prices now hempty, trim50_eq_lastN]
      have h' : (check_alerts m prices now).2.events.length ≤ 50 := by
        rw [hev]
        exact lastN_length ..
      have hih := ih (check_alerts m prices now).2 h'
      rw [hev] at hih
      rw [hih, lastN_append_lastN]
      show _ = lastN 50 (m.events ++ ((check_alerts m prices now).1
        ++ firedStream (check_alerts m prices now).2 rest))
      rw [List.append_assoc]

/-- C2: starting from an empty history, after any run of `check_alerts` calls
the history has at most 50 events and is exactly the most recent suffix of
the append stream of fired events, in original order; once more than 50
events have ever been appended it is exactly the 50 most recent ones. -/
theorem C2_history_bounded_fifo (m : AlertManager)
    (calls : List (List StockPrice × ℚ)) (hinit : m.events = []) :
    (runChecks m calls).events.length ≤ 50
    ∧ (runChecks m calls).events = lastN 50 (firedStream m calls)
    ∧ ((firedStream m calls).length > 50 →
        (runChecks m calls).events
          = (firedStream m calls).drop ((firedStream m calls).length - 50)
        ∧ (runChecks m calls).events.length = 50) := by
  have h := runChecks_events calls m (by rw [hinit]; simp)
  rw [hinit, List.nil_append] at h
  refine ⟨by rw [h]; exact lastN_length .., h, ?_⟩
  intro hgt
  constructor
  · rw [h]
    rfl
  · rw [h]
    simp only [lastN, List.length_drop]
    omega

theorem C2_witness : (runChecks exManager [([exPrice], 0)]).events.length ≤ 50 :=
  (C2_history_bounded_fifo exManager [([exPrice], 0)] rfl).1

/-!
C4: broadcast with failure pruning.
-/

theorem broadcastGo_spec (fails : Nat → Bool) :
    ∀ (rest keep : List Nat), (keep ++ rest).Nodup →
    broadcastGo fails rest ⟨keep ++ rest⟩ =
      (⟨keep ++ rest.filter (fun c => !fails c)⟩,
       rest.filter (fun c => !fails c)) := by
  intro rest
  induction rest with
  | nil =>
    intro keep _
    simp [broadcastGo]
  | cons c rest ih =>
    intro keep hnd
    have hnd' : (c :: (keep ++ rest)).Nodup := List.nodup_middle.1 hnd
    have hck : c ∉ keep := fun hc =>
      (List.nodup_cons.1 hnd').1 (List.mem_append_left rest hc)
    rcases hf : fails c with - | -
    · -- send succeeds: c stays, loop continues on the same live list
      have hsplit : keep ++ c :: rest = (keep ++ [c]) ++ rest := by simp
      have ihc := ih (keep ++ [c]) (by rw [← hsplit]; exact hnd)
      rw [← hsplit] at ihc
      simp only [broadcastGo, hf, Bool.false_eq_true, if_false, ihc]
      simp [List.filter_cons, hf]
    · -- send raises: c is disconnected, loop continues without it
      have hmem : c ∈ keep ++ c :: rest :=
        List.mem_append_right keep (List.mem_cons_self c rest)
      have herase : (keep ++ c :: rest).erase c = keep ++ rest := by
        rw [List.erase_append_right _ hck, List.erase_cons_head]
      simp only [broadcastGo, hf, if_true]
      simp only [disconnect]
      rw [if_pos hmem, herase, ih keep (List.nodup_cons.1 hnd').2]
      simp [List.filter_cons, hf]

/-- C4: `broadcast` over a duplicate-free registry attempts every subscriber
present at the start of the call; exactly the subscribers whose send fails
are removed, and every other subscriber receives the message and stays
registered — one failure aborts nothing. -/
theorem C4_broadcast_prunes_failures (m : ConnectionManager) (fails : Nat → Bool)
    (hnd : m.active_connections.Nodup) :
    (broadcast fails m).1.active_connections
        = m.active_connections.filter (fun c => !fails c)
    ∧ (broadcast fails m).2 = m.active_connections.filter (fun c => !fails c)
    ∧ (∀ c ∈ m.active_connections, fails c = true →
        c ∉ (broadcast fails m).1.active_connections ∧ c ∉ (broadcast fails m).2)
    ∧ (∀ c ∈ m.active_connections, fails c = false →
        c ∈ (broadcast fails m).1.active_connections ∧ c ∈ (broadcast fails m).2) := by
  have h : broadcast fails m =
      (⟨m.active_connections.filter (fun c => !fails c)⟩,
       m.active_connections.filter (fun c => !fails c)) := by
    have := broadcastGo_spec fails m.active_connections [] (by simpa using hnd)
    simpa [broadcast] using this
  rw [h]
  refine ⟨rfl, rfl, ?_, ?_⟩
  · intro c hc hf
    constructor <;>
      · simp only [List.mem_filter]
        rintro ⟨-, hkeep⟩
        rw [hf] at hkeep
        simp at hkeep
  · intro c hc hf
    constructor <;>
      · simp only [List.mem_filter]
        exact ⟨hc, by rw [hf]; rfl⟩

theorem C4_witness :
    (broadcast (fun c => c == 2) ⟨[1, 2, 3]⟩).1.active_connections = [1, 3]
    ∧ (broadcast (fun c => c == 2) ⟨[1, 2, 3]⟩).2 = [1, 3] := by
  have h := C4_broadcast_prunes_failures ⟨[1, 2, 3]⟩ (fun c => c == 2) (by decide)
  exact ⟨h.1.trans (by decide), h.2.1.trans (by decide)⟩

/-!
C3 / C7: the price cache.
-/

theorem decode_encode (p : StockPrice) :
    decodeStockPrice (encodeStockPrice p) = some p := rfl

theorem decodeItems_map_encode (l : List StockPrice) :
    decodeData.decodeItems (l.map encodeStockPrice) = some l := by
  induction l with
  | nil => rfl
  | cons p rest ih =>
    simp only [List.map_cons, decodeData.decodeItems, decode_encode, ih]

/-- What `load_prices` sees right after `save_prices`: the blob always parses
back, so the age check alone decides hit or miss. -/
theorem load_save (c : PriceCache) (prices : List StockPrice)
    (t0 maxAge now : ℚ) :
    load_prices (save_prices c prices t0) maxAge now =
      if now - t0 > maxAge then none else some prices := by
  show (if now - t0 > maxAge then none
      else decodeData ((some (Json.arr (prices.map encodeStockPrice))).getD
        (.arr []))) = _
  split
  · rfl
  · show decodeData.decodeItems (prices.map encodeStockPrice) = some prices
    exact decodeItems_map_encode prices

/-- C7: a snapshot stored with `save_prices` and loaded with a sufficiently
large `max_age_seconds` is reproduced field-for-field. -/
theorem C7_roundtrip (c : PriceCache) (prices : List StockPrice)
    (t0 now maxAge : ℚ) (h : now - t0 ≤ maxAge) :
    load_prices (save_prices c prices t0) maxAge now = some prices := by
  rw [load_save, if_neg (not_lt.mpr h)]

theorem C7_witness :
    load_prices (save_prices PriceCache.init [exPrice] 100) 20 110
      = some [exPrice] :=
  C7_roundtrip PriceCache.init [exPrice] 100 110 20 (by norm_num)

/-- C3: `load_prices` returns a snapshot exactly when a cached payload
exists, parses to an object whose `ts` converts to a float, the data items
all validate, and `now - ts ≤ max_age_seconds` — the boundary
`now - ts = max_age_seconds` included; in every other case (no blob,
unparseable blob, non-object blob, missing or unusable `ts`, stale age,
invalid item) it returns `none` rather than raising. -/
theorem C3_load_hit_iff (c : PriceCache) (maxAge now : ℚ) :
    (∀ l : List StockPrice,
      load_prices c maxAge now = some l ↔
        ∃ raw fields tsJson ts,
          c.memory_blob = some raw ∧
          json_loads raw = some (.obj fields) ∧
          jLookup fields "ts" = some tsJson ∧
          floatOfJson tsJson = some ts ∧
          now - ts ≤ maxAge ∧
          decodeData ((jLookup fields "data").getD (.arr [])) = some l)
    ∧ (c.memory_blob = some .malformed → load_prices c maxAge now = none)
    ∧ (∀ (prices : List StockPrice) (t0 : ℚ), now - t0 = maxAge →
        load_prices (save_prices c prices t0) maxAge now = some prices) := by
  refine ⟨?_, ?_, ?_⟩
  · intro l
    rcases hm : c.memory_blob with - | raw
    · simp [load_prices, hm]
    · rcases raw with - | j
      · simp [load_prices, hm, json_loads]
      · rcases j with - | b | q | s | t | xs | fields
        case obj =>
          simp only [load_prices, hm, json_loads, jGetAttr]
          rcases hts : jLookup fields "ts" with - | tsJson
          · simp [hts]
          · rcases hf : floatOfJson tsJson with - | ts
            · simp [hts, hf]
            · rcases le_or_lt (now - ts) maxAge with hage | hage
              · simp only [hf]
                rw [if_neg (not_lt.mpr hage)]
                simp [hts, hf, hage]
                intro _
                linarith
              · simp only [hf]
                rw [if_pos hage]
                refine iff_of_false (by simp) ?_
                rintro ⟨raw', fields', tsJson', ts', hraw', hjson', hts', hf', hage', -⟩
                rw [Option.some_inj] at hraw'
                subst hraw'
                simp only [json_loads, Option.some_inj, Json.obj.injEq] at hjson'
                subst hjson'
                rw [hts, Option.some_inj] at hts'
                subst hts'
                rw [hf, Option.some_inj] at hf'
                subst hf'
                exact absurd hage' (not_le.mpr hage)
        all_goals simp [load_prices, hm, json_loads, jGetAttr]
  · intro hmal
    simp [load_prices, hmal, json_loads]
  · intro prices t0 ht
    rw [load_save, if_neg (by rw [ht]; exact lt_irrefl maxAge)]

theorem C3_witness :
    load_prices (save_prices PriceCache.init [exPriceTsla] 100) 20 120
      = some [exPriceTsla] :=
  (C3_load_hit_iff (save_prices PriceCache.init [exPriceTsla] 100) 20 120).2.2
    [exPriceTsla] 100 (by norm_num)

/-!
C8: copy semantics of `list_rules` / `recent_events`.
-/

def exStore : RuleStore :=
  { ruleHeap := [exRule], eventHeap := [], ruleRefs := [0], eventRefs := [] }

/-- C8 counterexample: `list(self._rules.values())` is a shallow copy.  The
caller takes the first element of the sequence returned by `list_rules` and
mutates it in place (`.enabled = False`); the engine's own rule state changes
with it, so mutation of a returned ELEMENT does reach engine state. -/
theorem C8_counterexample :
    rulesView (writeRuleObject exStore ((list_rules_refs exStore).getD 0 0)
      { exRule with enabled := false }) ≠ rulesView exStore := by
  with_unfolding_all decide

/-- C8 amended: the returned sequences are fresh list values holding the
engine's current references — surgery on the returned list itself never
changes engine state, `list_rules` lists the rules in registration order and
`recent_events` the full history oldest first; but the elements are shared:
an in-place write through a returned reference updates exactly that object
in the engine's own view. -/
theorem C8_amended_copy_semantics (s : RuleStore) (surgery : List Nat → List Nat)
    (ref : Nat) (r' : AlertRule) (href : ref < s.ruleHeap.length) :
    (callerListSurgery s surgery).1 = s
    ∧ list_rules_refs s = s.ruleRefs
    ∧ recent_events_refs s = s.eventRefs
    ∧ rulesView (writeRuleObject s ref r')
        = s.ruleRefs.map
            (fun i => if i = ref then r' else s.ruleHeap.getD i defaultRule) := by
  refine ⟨rfl, rfl, rfl, ?_⟩
  refine List.map_congr_left fun i _ => ?_
  rcases eq_or_ne i ref with h | h
  · subst h
    simp [writeRuleObject, List.getD_eq_getElem?_getD,
      List.getElem?_set_self href]
  · simp [writeRuleObject, List.getD_eq_getElem?_getD,
      List.getElem?_set_ne (Ne.symm h), h]

theorem C8_witness :
    rulesView (writeRuleObject exStore 0 { exRule with enabled := false })
      = [{ exRule with enabled := false }] := by
  have h := (C8_amended_copy_semantics exStore id 0
    { exRule with enabled := false } (by with_unfolding_all decide)).2.2.2
  rw [h]
  with_unfolding_all decide

end StockWidget
